import Mathlib

/-!
Verification of the decision/query engine of a fitness management system
(`test7.py`): directory lookup by binary search, a stable merge sort on meals,
a stable three-way quicksort on workouts, a greedy diet planner, a 0/1-knapsack
workout scheduler with backtracking, and a sliding-window progress aggregator.

Numeric fields typed `float` in the source (`calories`, `protein`,
`calories_burn`, `calories_burned`, ...) are modelled by `ℚ`; durations and
the scheduler budget, typed nonnegative `int`, are modelled by `ℕ`; calendar
dates by `ℤ` (day number).
-/

/-- Meal record (`class Meal` in the source). -/
structure Meal where
  name : String
  calories : ℚ
  protein : ℚ
  carbs : ℚ
  fat : ℚ
  timestamp : Int
deriving DecidableEq

/-- Workout record (`class Workout` in the source). -/
structure Workout where
  name : String
  difficulty : String
  duration : Nat
  calories_burn : ℚ
  timestamp : Int
deriving DecidableEq

/-- Activity record (`class Activity` in the source). -/
structure Activity where
  activity_type : String
  duration : Int
  calories_burned : ℚ
  timestamp : Int
deriving DecidableEq

/-- Merge two lists, preferring the left element whenever `le a b` holds.
This is the body of `_merge_meals` (with the comparator abstracted):
compare head elements, take the left one on `<=`, and append leftovers. -/
def mergeBy (le : α → α → Bool) : List α → List α → List α
  | [], r => r
  | l, [] => l
  | a :: l, b :: r =>
    if le a b then a :: mergeBy le l (b :: r) else b :: mergeBy le (a :: l) r

/-- Top-down merge sort: lists of length at most 1 are returned as is,
longer lists are split at `length / 2`, sorted recursively, and merged.
This is the recursion of `merge_sort_meals`, and it also models the
behaviour of Python's built-in stable `sorted`. -/
def sortBy (le : α → α → Bool) (l : List α) : List α :=
  if _h : l.length ≤ 1 then l
  else
    mergeBy le (sortBy le (l.take (l.length / 2))) (sortBy le (l.drop (l.length / 2)))
termination_by l.length
decreasing_by
  · simp only [List.length_take]; omega
  · simp only [List.length_drop]; omega

/-- Comparator of `merge_sort_meals`: `left[i].calories <= right[j].calories`. -/
def mealLe (a b : Meal) : Bool := a.calories ≤ b.calories

/-- `_merge_meals` from the source: merge two meal lists by `calories`,
preferring the left list on ties. -/
def merge_meals (left right : List Meal) : List Meal := mergeBy mealLe left right

/-- `merge_sort_meals` from the source: merge sort by `calories`, ascending. -/
def merge_sort_meals (meals : List Meal) : List Meal := sortBy mealLe meals

/-- Comparator used by `binary_search_user`'s call to Python's built-in
`sorted` on user-id strings: plain lexicographic string order. -/
def strLe (a b : String) : Bool := a ≤ b

/-- The `while left <= right` loop of `binary_search_user`: halve the
interval at `mid = (left + right) // 2` (floor division, as in Python),
return `true` on an exact match, otherwise narrow to the half that can
contain the target.  Out-of-range indexing cannot occur while the loop
invariant `0 ≤ left ≤ right < length` holds; `getD` supplies a default
exactly as a total model of list indexing. -/
def bsearchLoop (sorted_users : List String) (user_id : String) (left right : Int) : Bool :=
  if left ≤ right then
    let mid := (left + right) / 2
    if sorted_users.getD mid.toNat "" = user_id then true
    else if sorted_users.getD mid.toNat "" < user_id then
      bsearchLoop sorted_users user_id (mid + 1) right
    else
      bsearchLoop sorted_users user_id left (mid - 1)
  else false
termination_by (right + 1 - left).toNat
decreasing_by
  · omega
  · omega

/-- `binary_search_user` from the source: sort the user ids, then binary
search for `user_id`. -/
def binary_search_user (users : List String) (user_id : String) : Bool :=
  let sorted_users := sortBy strLe users
  bsearchLoop sorted_users user_id 0 ((sorted_users.length : Int) - 1)

/-- `quick_sort_workouts` from the source: three-way quicksort on
`calories_burn`, descending, pivot at index `length // 2`, partition by
order-preserving filters, recurse on the strict buckets. -/
def quick_sort_workouts (workouts : List Workout) : List Workout :=
  if h : workouts.length ≤ 1 then workouts
  else
    have hmid : workouts.length / 2 < workouts.length := Nat.div_lt_self (by omega) (by omega)
    let pivot := workouts.get ⟨workouts.length / 2, hmid⟩
    quick_sort_workouts (workouts.filter fun x => pivot.calories_burn < x.calories_burn) ++
      (workouts.filter fun x => x.calories_burn = pivot.calories_burn) ++
      quick_sort_workouts (workouts.filter fun x => x.calories_burn < pivot.calories_burn)
termination_by workouts.length
decreasing_by
  · exact List.length_filter_lt_length_iff_exists.mpr
      ⟨workouts.get ⟨workouts.length / 2, hmid⟩, List.get_mem _ _ hmid, by simp⟩
  · exact List.length_filter_lt_length_iff_exists.mpr
      ⟨workouts.get ⟨workouts.length / 2, hmid⟩, List.get_mem _ _ hmid, by simp⟩

/-- Comparator of the first `sorted` call in `greedy_diet_planner`: ascending
in the key `calories / protein if protein > 0 else +infinity`. -/
def ratioLe (a b : Meal) : Bool :=
  if 0 < a.protein then
    if 0 < b.protein then a.calories / a.protein ≤ b.calories / b.protein
    else true
  else
    if 0 < b.protein then false else true

/-- Comparator of the second `sorted` call in `greedy_diet_planner`:
ascending in `abs (calories - remaining_calories)`. -/
def closeLe (remaining_calories : ℚ) (a b : Meal) : Bool :=
  |a.calories - remaining_calories| ≤ |b.calories - remaining_calories|

/-- Phase-1 loop of `greedy_diet_planner` (`for meal in sorted_meals`),
with the mutable `recommended_meals`, `current_calories`, `current_protein`
threaded as accumulators. -/
def phase1Aux (target_calories protein_target : ℚ) :
    List Meal → List Meal → ℚ → ℚ → List Meal × ℚ × ℚ
  | [], recommended, current_calories, current_protein =>
      (recommended, current_calories, current_protein)
  | meal :: rest, recommended, current_calories, current_protein =>
    if current_calories + meal.calories ≤ target_calories ∧
        current_protein < protein_target then
      phase1Aux target_calories protein_target rest (recommended ++ [meal])
        (current_calories + meal.calories) (current_protein + meal.protein)
    else
      phase1Aux target_calories protein_target rest recommended current_calories current_protein

/-- Phase-2 loop of `greedy_diet_planner` (`for meal in sorted(remaining_meals, ...)`),
adding a meal while the running total stays within the overshoot cap. -/
def phase2Aux (cap : ℚ) : List Meal → List Meal → ℚ → List Meal × ℚ
  | [], recommended, current_calories => (recommended, current_calories)
  | meal :: rest, recommended, current_calories =>
    if current_calories + meal.calories ≤ cap then
      phase2Aux cap rest (recommended ++ [meal]) (current_calories + meal.calories)
    else
      phase2Aux cap rest recommended current_calories

/-- `greedy_diet_planner` from the source, with the meal database passed
explicitly.  `0.3` and `1.1` are the exact rationals `3/10` and `11/10`. -/
def greedy_diet_planner (meals_database : List Meal) (target_calories : ℚ) : List Meal :=
  let sorted_meals := sortBy ratioLe meals_database
  let protein_target := target_calories * (3 / 10) / 4
  let phase1 := phase1Aux target_calories protein_target sorted_meals [] 0 0
  let recommended_meals := phase1.1
  let current_calories := phase1.2.1
  let remaining_calories := target_calories - current_calories
  if 0 < remaining_calories then
    let remaining_meals := sorted_meals.filter (fun m => m ∉ recommended_meals)
    (phase2Aux (target_calories * (11 / 10))
      (sortBy (closeLe remaining_calories) remaining_meals)
      recommended_meals current_calories).1
  else recommended_meals

/-- Total `calories` of a list of meals. -/
def totalCal (meals : List Meal) : ℚ := (meals.map Meal.calories).sum

/-- Total `calories_burn` of a list of workouts. -/
def totalBurn (workouts : List Workout) : ℚ := (workouts.map Workout.calories_burn).sum

/-- Total `duration` of a list of workouts. -/
def totalDur (workouts : List Workout) : Nat := (workouts.map Workout.duration).sum

/-- Value `dp[i][j]` of the table built by `dp_workout_scheduler`, where the
argument list holds the first `i` filtered items in reverse (head = item `i`).
Column `j = 0` is never written by the source's inner loop (`for j in
range(1, max_duration + 1)`), so it keeps its initial value `0`; for `j ≥ 1`
the source's recurrence applies, with the same strict `>` comparison. -/
def dpVal : List Workout → Nat → ℚ
  | _, 0 => 0
  | [], _ => 0
  | workout :: prev, j + 1 =>
    if workout.duration ≤ j + 1 then
      if dpVal prev (j + 1) < workout.calories_burn + dpVal prev (j + 1 - workout.duration) then
        workout.calories_burn + dpVal prev (j + 1 - workout.duration)
      else dpVal prev (j + 1)
    else dpVal prev (j + 1)

/-- The backtracking walk of `dp_workout_scheduler` (`while i > 0 and j > 0`),
over the reversed filtered list (head = last item, as the walk decrements `i`).
`selected[i][j]` holds exactly when the table-filling step took the include
branch: `j ≥ 1`, the item fits, and including it strictly improves the value. -/
def backtrack : List Workout → Nat → List Workout
  | [], _ => []
  | _ :: _, 0 => []
  | workout :: prev, j + 1 =>
    if workout.duration ≤ j + 1 ∧
        dpVal prev (j + 1) < workout.calories_burn + dpVal prev (j + 1 - workout.duration) then
      workout :: backtrack prev (j + 1 - workout.duration)
    else backtrack prev (j + 1)

/-- `dp_workout_scheduler` from the source: filter by exact difficulty match,
build the DP table, and reconstruct the selection by the backward walk. -/
def dp_workout_scheduler (workouts_database : List Workout) (max_duration : Nat)
    (difficulty : String) : List Workout :=
  let suitable_workouts := workouts_database.filter (fun w => w.difficulty = difficulty)
  backtrack suitable_workouts.reverse max_duration

/-- Brute-force 0/1-knapsack optimum: the maximum of `totalBurn` over all
subsets (sublists) of `items` whose `totalDur` is within `cap`. -/
def bestValue (items : List Workout) (cap : Nat) : ℚ :=
  ((items.sublists.filter (fun s => totalDur s ≤ cap)).map totalBurn).foldr max 0

/-- Dictionary lookup in an activity log (mapping date → activities),
modelled as an association list. -/
def logLookup : List (Int × List Activity) → Int → Option (List Activity)
  | [], _ => none
  | (k, v) :: rest, d => if k = d then some v else logLookup rest d

/-- Sum of `calories_burned` over a day's activities
(`sum(activity.calories_burned for activity in ...)`). -/
def actsCalories (acts : List Activity) : ℚ := (acts.map Activity.calories_burned).sum

/-- The `while current_date <= end_date` scan of `calculate_progress`, with the
running totals threaded as accumulators. -/
def progressLoop (activity_log : List (Int × List Activity)) (end_date current_date : Int)
    (total_activities : Nat) (total_calories : ℚ) : Nat × ℚ :=
  if current_date ≤ end_date then
    match logLookup activity_log current_date with
    | some acts =>
        progressLoop activity_log end_date (current_date + 1)
          (total_activities + acts.length) (total_calories + actsCalories acts)
    | none =>
        progressLoop activity_log end_date (current_date + 1) total_activities total_calories
  else (total_activities, total_calories)
termination_by (end_date + 1 - current_date).toNat
decreasing_by
  · omega
  · omega

/-- The record returned by `calculate_progress`. -/
structure Progress where
  total_activities : Nat
  total_calories : ℚ
  avg_daily_activities : ℚ
  avg_daily_calories : ℚ

/-- `calculate_progress` from the source, with the user's activity log and
the current date passed explicitly: scan the inclusive range
`[today - days, today]`, then divide by `days` unless `days = 0`. -/
def calculate_progress (activity_log : List (Int × List Activity)) (today : Int)
    (days : Nat) : Progress :=
  let end_date := today
  let start_date := today - (days : Int)
  let scan := progressLoop activity_log end_date start_date 0 0
  { total_activities := scan.1
    total_calories := scan.2
    avg_daily_activities := if 0 < days then (scan.1 : ℚ) / (days : ℚ) else 0
    avg_daily_calories := if 0 < days then scan.2 / (days : ℚ) else 0 }

/-- Activity count recorded for one date (0 when the date is absent). -/
def countAt (activity_log : List (Int × List Activity)) (d : Int) : Nat :=
  match logLookup activity_log d with
  | some acts => acts.length
  | none => 0

/-- Calories recorded for one date (0 when the date is absent). -/
def calsAt (activity_log : List (Int × List Activity)) (d : Int) : ℚ :=
  match logLookup activity_log d with
  | some acts => actsCalories acts
  | none => 0

/-- Naive reference sum: activity count over the inclusive date range
`[today - days, today]`, one term per calendar date. -/
def naiveActs (activity_log : List (Int × List Activity)) (today : Int) (days : Nat) : Nat :=
  ((List.range (days + 1)).map (fun (k : Nat) => countAt activity_log (today - (k : Int)))).sum

/-- Naive reference sum: calories over the inclusive date range
`[today - days, today]`. -/
def naiveCals (activity_log : List (Int × List Activity)) (today : Int) (days : Nat) : ℚ :=
  ((List.range (days + 1)).map (fun (k : Nat) => calsAt activity_log (today - (k : Int)))).sum

/-- Membership test on the activity log (`current_date in user.activity_log`);
on a Python `defaultdict` this never inserts. -/
def ddMem (activity_log : List (Int × List Activity)) (d : Int) : Bool :=
  (logLookup activity_log d).isSome

/-- Indexing into the activity log (`user.activity_log[current_date]`); on a
Python `defaultdict(list)` a missing key is INSERTED with value `[]`, so the
possibly-grown log is returned alongside the value. -/
def ddGet (activity_log : List (Int × List Activity)) (d : Int) :
    List Activity × List (Int × List Activity) :=
  match logLookup activity_log d with
  | some v => (v, activity_log)
  | none => ([], activity_log ++ [(d, [])])

/-- Stateful embedding of the `calculate_progress` scan, tracking the activity
log through every `defaultdict` access: the membership test, the indexing for
`len(...)`, and the second indexing inside the generator sum. -/
def progressLoopS (end_date current_date : Int) (activity_log : List (Int × List Activity))
    (total_activities : Nat) (total_calories : ℚ) :
    (Nat × ℚ) × List (Int × List Activity) :=
  if current_date ≤ end_date then
    if ddMem activity_log current_date then
      let g1 := ddGet activity_log current_date
      let g2 := ddGet g1.2 current_date
      progressLoopS end_date (current_date + 1) g2.2
        (total_activities + g1.1.length) (total_calories + actsCalories g2.1)
    else
      progressLoopS end_date (current_date + 1) activity_log total_activities total_calories
  else ((total_activities, total_calories), activity_log)
termination_by (end_date + 1 - current_date).toNat
decreasing_by
  · omega
  · omega

/-- Stateful embedding of `calculate_progress`: returns the progress record
together with the activity log as it stands after the call. -/
def calculate_progressS (activity_log : List (Int × List Activity)) (today : Int)
    (days : Nat) : Progress × List (Int × List Activity) :=
  let scan := progressLoopS today (today - (days : Int)) activity_log 0 0
  ({ total_activities := scan.1.1
     total_calories := scan.1.2
     avg_daily_activities := if 0 < days then (scan.1.1 : ℚ) / (days : ℚ) else 0
     avg_daily_calories := if 0 < days then scan.1.2 / (days : ℚ) else 0 }, scan.2)

theorem mergeBy_perm (le : α → α → Bool) :
    ∀ l r : List α, List.Perm (mergeBy le l r) (l ++ r) := by
  intro l r
  induction l generalizing r with
  | nil => simp [mergeBy]
  | cons a l ih =>
    induction r with
    | nil => simp [mergeBy]
    | cons b r ihr =>
      by_cases hab : le a b
      · simpa [mergeBy, hab] using (ih (b :: r)).cons a
      · refine List.Perm.trans ?_ (List.perm_middle.symm)
        simpa [mergeBy, hab] using (ihr).cons b

theorem sortBy_perm (le : α → α → Bool) (l : List α) : List.Perm (sortBy le l) l := by
  induction l using sortBy.induct le with
  | case1 l h => rw [sortBy]; simp [h]
  | case2 l h ih1 ih2 =>
    rw [sortBy]; simp only [h, dite_false]
    refine List.Perm.trans (mergeBy_perm le _ _) ?_
    refine List.Perm.trans (List.Perm.append ih1 ih2) ?_
    exact List.Perm.of_eq (List.take_append_drop _ l)

theorem mergeBy_pairwise {le : α → α → Bool}
    (htot : ∀ a b, le a b = true ∨ le b a = true)
    (htrans : ∀ a b c, le a b = true → le b c = true → le a c = true) :
    ∀ {l r : List α}, l.Pairwise (fun a b => le a b = true) →
      r.Pairwise (fun a b => le a b = true) →
      (mergeBy le l r).Pairwise (fun a b => le a b = true) := by
  intro l r hl hr
  induction l generalizing r with
  | nil => simpa [mergeBy] using hr
  | cons a l ih =>
    induction r with
    | nil => simpa [mergeBy] using hl
    | cons b r ihr =>
      by_cases hab : le a b
      · simp only [mergeBy, hab, if_true]
        refine List.pairwise_cons.mpr ⟨?_, ih (List.pairwise_cons.mp hl).2 hr⟩
        intro x hx
        rcases List.mem_append.mp ((mergeBy_perm le l (b :: r)).mem_iff.mp hx) with h | h
        · exact (List.pairwise_cons.mp hl).1 x h
        · rcases List.mem_cons.mp h with rfl | h
          · exact hab
          · exact htrans a b x hab ((List.pairwise_cons.mp hr).1 x h)
      · simp only [mergeBy, hab, Bool.false_eq_true, if_false]
        have hba : le b a = true := (htot a b).resolve_left hab
        refine List.pairwise_cons.mpr ⟨?_, ihr (List.pairwise_cons.mp hr).2⟩
        intro x hx
        rcases List.mem_append.mp ((mergeBy_perm le (a :: l) r).mem_iff.mp hx) with h | h
        · rcases List.mem_cons.mp h with rfl | h
          · exact hba
          · exact htrans b a x hba ((List.pairwise_cons.mp hl).1 x h)
        · exact (List.pairwise_cons.mp hr).1 x h

theorem sortBy_pairwise {le : α → α → Bool}
    (htot : ∀ a b, le a b = true ∨ le b a = true)
    (htrans : ∀ a b c, le a b = true → le b c = true → le a c = true)
    (l : List α) : (sortBy le l).Pairwise (fun a b => le a b = true) := by
  induction l using sortBy.induct le with
  | case1 l h =>
    rw [sortBy]; simp only [h, dite_true]
    match l, h with
    | [], _ => exact List.Pairwise.nil
    | [a], _ => exact List.pairwise_singleton _ a
  | case2 l h ih1 ih2 =>
    rw [sortBy]; simp only [h, dite_false]
    exact mergeBy_pairwise htot htrans ih1 ih2

theorem mealLe_total : ∀ a b : Meal, mealLe a b = true ∨ mealLe b a = true := by
  intro a b
  simp only [mealLe, decide_eq_true_eq]
  exact le_total a.calories b.calories

theorem mealLe_trans : ∀ a b c : Meal,
    mealLe a b = true → mealLe b c = true → mealLe a c = true := by
  intro a b c
  simp only [mealLe, decide_eq_true_eq]
  exact le_trans

theorem mergeBy_filter_meal (c : ℚ) :
    ∀ {l r : List Meal}, l.Pairwise (fun a b => mealLe a b = true) →
      (mergeBy mealLe l r).filter (fun m => m.calories = c) =
        l.filter (fun m => m.calories = c) ++ r.filter (fun m => m.calories = c) := by
  intro l r hl
  induction l generalizing r with
  | nil => simp [mergeBy]
  | cons a l ih =>
    induction r with
    | nil => simp [mergeBy]
    | cons b r ihr =>
      by_cases hab : mealLe a b
      · simp only [mergeBy, hab, if_true]
        rw [List.filter_cons, List.filter_cons, ih (List.pairwise_cons.mp hl).2]
        split
        · simp
        · rfl
      · simp only [mergeBy, hab, Bool.false_eq_true, if_false]
        rw [List.filter_cons, ihr]
        have hblta : b.calories < a.calories := by
          have hh := hab
          simp only [mealLe, decide_eq_true_eq] at hh
          exact lt_of_not_le hh
        by_cases hpb : b.calories = c
        · have hfl : (a :: l).filter (fun m => m.calories = c) = [] := by
            rw [List.filter_eq_nil_iff]
            intro x hx
            simp only [decide_eq_true_eq]
            intro hxc
            rcases List.mem_cons.mp hx with rfl | h
            · linarith
            · have hax : a.calories ≤ x.calories := by
                have hh := (List.pairwise_cons.mp hl).1 x h
                simpa [mealLe, decide_eq_true_eq] using hh
              linarith
          simp [hpb, hfl, List.filter_cons]
        · simp [hpb, List.filter_cons]

theorem sortBy_filter_meal (c : ℚ) (l : List Meal) :
    (sortBy mealLe l).filter (fun m => m.calories = c) = l.filter (fun m => m.calories = c) := by
  induction l using sortBy.induct mealLe with
  | case1 l h => rw [sortBy]; simp [h]
  | case2 l h ih1 ih2 =>
    rw [sortBy]; simp only [h, dite_false]
    rw [mergeBy_filter_meal c (sortBy_pairwise mealLe_total mealLe_trans _), ih1, ih2,
      ← List.filter_append, List.take_append_drop]

/-- C3: `sortByCalories` (source: `merge_sort_meals`) returns a permutation of
its input, sorted ascending by `calories`, and stable: for every calorie value
`c`, the meals with calories `c` appear in the output in the same order as in
the input. -/
theorem sortByCalories_correct (meals : List Meal) :
    List.Perm (merge_sort_meals meals) meals ∧
    (merge_sort_meals meals).Pairwise (fun a b => a.calories ≤ b.calories) ∧
    ∀ c : ℚ, (merge_sort_meals meals).filter (fun m => m.calories = c) =
      meals.filter (fun m => m.calories = c) := by
  refine ⟨sortBy_perm _ _, ?_, fun c => sortBy_filter_meal c meals⟩
  have hp := sortBy_pairwise mealLe_total mealLe_trans meals
  exact hp.imp (fun h => by simpa [mealLe, decide_eq_true_eq] using h)

theorem strLe_total : ∀ a b : String, strLe a b = true ∨ strLe b a = true := by
  intro a b
  simp only [strLe, decide_eq_true_eq]
  exact le_total a b

theorem strLe_trans : ∀ a b c : String,
    strLe a b = true → strLe b c = true → strLe a c = true := by
  intro a b c
  simp only [strLe, decide_eq_true_eq]
  exact le_trans

theorem sorted_getD_mono {xs : List String} (hp : xs.Pairwise (· ≤ ·)) {i j : Nat}
    (hij : i ≤ j) (hj : j < xs.length) : xs.getD i "" ≤ xs.getD j "" := by
  rcases Nat.lt_or_ge i j with h | h
  · rw [List.getD_eq_get xs "" (Nat.lt_trans h hj), List.getD_eq_get xs "" hj]
    exact List.pairwise_iff_get.mp hp ⟨i, Nat.lt_trans h hj⟩ ⟨j, hj⟩ h
  · have hji : i = j := Nat.le_antisymm hij h
    subst hji
    exact le_refl _

theorem bsearchLoop_correct (xs : List String) (t : String)
    (hp : xs.Pairwise (· ≤ ·)) :
    ∀ l r : Int, 0 ≤ l → r < (xs.length : Int) →
      (bsearchLoop xs t l r = true ↔
        ∃ i : Nat, l ≤ (i : Int) ∧ (i : Int) ≤ r ∧ xs.getD i "" = t) := by
  intro l r
  induction l, r using bsearchLoop.induct xs t with
  | case1 l r hlr mid heq =>
    intro hl hr
    have hmid : mid = (l + r) / 2 := rfl
    rw [hmid] at heq
    have hrun : bsearchLoop xs t l r = true := by
      rw [bsearchLoop, if_pos hlr]
      show (if xs.getD ((l + r) / 2).toNat "" = t then true
        else if xs.getD ((l + r) / 2).toNat "" < t then bsearchLoop xs t ((l + r) / 2 + 1) r
        else bsearchLoop xs t l ((l + r) / 2 - 1)) = true
      rw [if_pos heq]
    rw [hrun]
    simp only [true_iff]
    exact ⟨((l + r) / 2).toNat, by omega, by omega, heq⟩
  | case2 l r hlr mid hne hlt ih =>
    intro hl hr
    have hmid : mid = (l + r) / 2 := rfl
    rw [hmid] at hne hlt ih
    have hrun : bsearchLoop xs t l r = bsearchLoop xs t ((l + r) / 2 + 1) r := by
      rw [bsearchLoop, if_pos hlr]
      show (if xs.getD ((l + r) / 2).toNat "" = t then true
        else if xs.getD ((l + r) / 2).toNat "" < t then bsearchLoop xs t ((l + r) / 2 + 1) r
        else bsearchLoop xs t l ((l + r) / 2 - 1)) = bsearchLoop xs t ((l + r) / 2 + 1) r
      rw [if_neg hne, if_pos hlt]
    rw [hrun, ih (by omega) hr]
    constructor
    · rintro ⟨i, h1, h2, h3⟩
      exact ⟨i, by omega, h2, h3⟩
    · rintro ⟨i, h1, h2, h3⟩
      refine ⟨i, ?_, h2, h3⟩
      by_contra hcon
      have hmidlt : ((l + r) / 2).toNat < xs.length := by omega
      have hmono : xs.getD i "" ≤ xs.getD ((l + r) / 2).toNat "" :=
        sorted_getD_mono hp (by omega) hmidlt
      rw [h3] at hmono
      exact absurd (lt_of_le_of_lt hmono hlt) (lt_irrefl t)
  | case3 l r hlr mid hne hnlt ih =>
    intro hl hr
    have hmid : mid = (l + r) / 2 := rfl
    rw [hmid] at hne hnlt ih
    have hrun : bsearchLoop xs t l r = bsearchLoop xs t l ((l + r) / 2 - 1) := by
      rw [bsearchLoop, if_pos hlr]
      show (if xs.getD ((l + r) / 2).toNat "" = t then true
        else if xs.getD ((l + r) / 2).toNat "" < t then bsearchLoop xs t ((l + r) / 2 + 1) r
        else bsearchLoop xs t l ((l + r) / 2 - 1)) = bsearchLoop xs t l ((l + r) / 2 - 1)
      rw [if_neg hne, if_neg hnlt]
    have htv : t < xs.getD ((l + r) / 2).toNat "" :=
      lt_of_le_of_ne (le_of_not_lt hnlt) (fun h => hne h.symm)
    rw [hrun, ih hl (by omega)]
    constructor
    · rintro ⟨i, h1, h2, h3⟩
      exact ⟨i, h1, by omega, h3⟩
    · rintro ⟨i, h1, h2, h3⟩
      refine ⟨i, h1, ?_, h3⟩
      by_contra hcon
      have hilen : i < xs.length := by omega
      have hmono : xs.getD ((l + r) / 2).toNat "" ≤ xs.getD i "" :=
        sorted_getD_mono hp (by omega) hilen
      rw [h3] at hmono
      exact absurd (lt_of_lt_of_le htv hmono) (lt_irrefl t)
  | case4 l r hlr =>
    intro hl hr
    have hrun : bsearchLoop xs t l r = false := by
      rw [bsearchLoop, if_neg hlr]
    rw [hrun]
    constructor
    · intro h
      exact absurd h (by simp)
    · rintro ⟨i, h1, h2, h3⟩
      omega

/-- C5: `exists` (source: `binary_search_user`) returns `true` exactly when
the target id is a member of the id collection; in particular it returns
`false` on the empty collection. -/
theorem exists_iff_member (users : List String) (target : String) :
    binary_search_user users target = true ↔ target ∈ users := by
  have hperm := sortBy_perm strLe users
  have hp : (sortBy strLe users).Pairwise (· ≤ ·) :=
    (sortBy_pairwise strLe_total strLe_trans users).imp
      (fun h => by simpa [strLe, decide_eq_true_eq] using h)
  show bsearchLoop (sortBy strLe users) target 0 (((sortBy strLe users).length : Int) - 1) =
      true ↔ _
  rw [bsearchLoop_correct _ _ hp 0 _ (le_refl 0) (by omega)]
  constructor
  · rintro ⟨i, h1, h2, h3⟩
    have hilen : i < (sortBy strLe users).length := by omega
    rw [List.getD_eq_get _ "" hilen] at h3
    exact hperm.mem_iff.mp (h3 ▸ List.get_mem _ i hilen)
  · intro hmem
    rcases List.mem_iff_get.mp (hperm.mem_iff.mpr hmem) with ⟨⟨n, hn⟩, hget⟩
    refine ⟨n, by omega, by omega, ?_⟩
    rw [List.getD_eq_get _ "" hn]
    exact hget

theorem filter_cb_filter (c : ℚ) (q : Workout → Bool) (ws : List Workout)
    (h : ∀ a : Workout, a.calories_burn = c → q a = true) :
    (ws.filter q).filter (fun a => a.calories_burn = c) =
      ws.filter (fun a => a.calories_burn = c) := by
  rw [List.filter_filter]
  refine List.filter_congr ?_
  intro a _
  by_cases hc : a.calories_burn = c
  · simp [hc, h a hc]
  · simp [hc]

theorem filter_cb_filter_nil (c : ℚ) (q : Workout → Bool) (ws : List Workout)
    (h : ∀ a : Workout, a.calories_burn = c → q a = false) :
    (ws.filter q).filter (fun a => a.calories_burn = c) = [] := by
  rw [List.filter_filter]
  rw [List.filter_eq_nil_iff]
  intro a _
  by_cases hc : a.calories_burn = c
  · simp [hc, h a hc]
  · simp [hc]

theorem partition_perm (p : ℚ) (ws : List Workout) :
    List.Perm
      ((ws.filter fun x => p < x.calories_burn) ++
        ((ws.filter fun x => x.calories_burn = p) ++
          (ws.filter fun x => x.calories_burn < p)))
      ws := by
  have h1 := List.filter_append_perm (fun x => decide (p < x.calories_burn)) ws
  have h2 := List.filter_append_perm (fun x => decide (x.calories_burn = p))
    (ws.filter fun x => !decide (p < x.calories_burn))
  have he : ((ws.filter fun x => !decide (p < x.calories_burn)).filter
      fun x => decide (x.calories_burn = p)) = ws.filter fun x => x.calories_burn = p := by
    rw [List.filter_filter]
    refine List.filter_congr ?_
    intro a _
    by_cases hc : a.calories_burn = p
    · simp [hc]
    · simp [hc]
  have hl : ((ws.filter fun x => !decide (p < x.calories_burn)).filter
      fun x => !decide (x.calories_burn = p)) = ws.filter fun x => x.calories_burn < p := by
    rw [List.filter_filter]
    refine List.filter_congr ?_
    intro a _
    rcases lt_trichotomy a.calories_burn p with hc | hc | hc
    · simp [hc, ne_of_lt hc, not_lt_of_lt hc]
    · simp [hc]
    · simp [not_lt_of_lt hc, Ne.symm (ne_of_lt hc), hc, not_lt_of_lt hc]
  rw [he, hl] at h2
  exact List.Perm.trans (List.Perm.append (List.Perm.refl _) h2) h1

theorem quick_sort_perm (ws : List Workout) :
    List.Perm (quick_sort_workouts ws) ws := by
  induction ws using quick_sort_workouts.induct with
  | case1 ws h => rw [quick_sort_workouts]; simp [h]
  | case2 ws h hmid pivot ih1 ih2 =>
    rw [quick_sort_workouts]
    simp only [h, dite_false]
    rw [List.append_assoc]
    exact List.Perm.trans
      (List.Perm.append ih1 (List.Perm.append (List.Perm.refl _) ih2))
      (partition_perm pivot.calories_burn ws)

theorem quick_sort_pairwise (ws : List Workout) :
    (quick_sort_workouts ws).Pairwise (fun a b => b.calories_burn ≤ a.calories_burn) := by
  induction ws using quick_sort_workouts.induct with
  | case1 ws h =>
    rw [quick_sort_workouts]; simp only [h, dite_true]
    match ws, h with
    | [], _ => exact List.Pairwise.nil
    | [a], _ => exact List.pairwise_singleton _ a
  | case2 ws h hmid pivot ih1 ih2 =>
    rw [quick_sort_workouts]
    simp only [h, dite_false]
    have memL : ∀ a ∈ quick_sort_workouts (ws.filter fun x => pivot.calories_burn < x.calories_burn),
        pivot.calories_burn < a.calories_burn := by
      intro a ha
      have := (quick_sort_perm _).mem_iff.mp ha
      simpa using (List.mem_filter.mp this).2
    have memR : ∀ a ∈ quick_sort_workouts (ws.filter fun x => x.calories_burn < pivot.calories_burn),
        a.calories_burn < pivot.calories_burn := by
      intro a ha
      have := (quick_sort_perm _).mem_iff.mp ha
      simpa using (List.mem_filter.mp this).2
    have memM : ∀ a ∈ ws.filter fun x => x.calories_burn = pivot.calories_burn,
        a.calories_burn = pivot.calories_burn := by
      intro a ha
      simpa using (List.mem_filter.mp ha).2
    rw [List.pairwise_append]
    refine ⟨?_, ih2, ?_⟩
    · rw [List.pairwise_append]
      refine ⟨ih1, ?_, ?_⟩
      · exact List.pairwise_of_forall_mem_list fun a ha b hb => by
          rw [memM a ha, memM b hb]
      · intro a ha b hb
        rw [memM b hb]
        exact le_of_lt (memL a ha)
    · intro a ha b hb
      rcases List.mem_append.mp ha with ha | ha
      · exact le_of_lt (lt_trans (memR b hb) (memL a ha))
      · rw [memM a ha]
        exact le_of_lt (memR b hb)

theorem quick_sort_filter (c : ℚ) (ws : List Workout) :
    (quick_sort_workouts ws).filter (fun w => w.calories_burn = c) =
      ws.filter (fun w => w.calories_burn = c) := by
  induction ws using quick_sort_workouts.induct with
  | case1 ws h => rw [quick_sort_workouts]; simp [h]
  | case2 ws h hmid pivot ih1 ih2 =>
    rw [quick_sort_workouts]
    simp only [h, dite_false]
    obtain ⟨p, hp⟩ : ∃ p, pivot.calories_burn = p := ⟨_, rfl⟩
    rw [hp] at ih1 ih2 ⊢
    rw [List.filter_append, List.filter_append, ih1, ih2]
    rcases lt_trichotomy c p with hc | hc | hc
    · rw [filter_cb_filter_nil c (fun x => decide (p < x.calories_burn)) ws
          (fun a ha => by simp only [ha]; exact decide_eq_false (by linarith)),
        filter_cb_filter_nil c (fun x => decide (x.calories_burn = p)) ws
          (fun a ha => by simp only [ha]; exact decide_eq_false (ne_of_lt hc)),
        filter_cb_filter c (fun x => decide (x.calories_burn < p)) ws
          (fun a ha => by simp only [ha]; exact decide_eq_true hc)]
      simp
    · rw [filter_cb_filter_nil c (fun x => decide (p < x.calories_burn)) ws
          (fun a ha => by simp only [ha]; exact decide_eq_false (by rw [hc]; exact lt_irrefl p)),
        filter_cb_filter c (fun x => decide (x.calories_burn = p)) ws
          (fun a ha => by simp only [ha]; exact decide_eq_true hc),
        filter_cb_filter_nil c (fun x => decide (x.calories_burn < p)) ws
          (fun a ha => by simp only [ha]; exact decide_eq_false (by rw [hc]; exact lt_irrefl p))]
      simp
    · rw [filter_cb_filter c (fun x => decide (p < x.calories_burn)) ws
          (fun a ha => by simp only [ha]; exact decide_eq_true hc),
        filter_cb_filter_nil c (fun x => decide (x.calories_burn = p)) ws
          (fun a ha => by simp only [ha]; exact decide_eq_false (ne_of_gt hc)),
        filter_cb_filter_nil c (fun x => decide (x.calories_burn < p)) ws
          (fun a ha => by simp only [ha]; exact decide_eq_false (by linarith))]
      simp

/-- C4: `sortByCaloriesBurnDescending` (source: `quick_sort_workouts`) returns
a permutation of its input, sorted descending by `calories_burn`, stable on
ties (for every burn value `c`, workouts with that burn keep their input
order), and returns empty or singleton inputs unchanged. -/
theorem sortByCaloriesBurnDescending_correct (workouts : List Workout) :
    List.Perm (quick_sort_workouts workouts) workouts ∧
    (quick_sort_workouts workouts).Pairwise (fun a b => b.calories_burn ≤ a.calories_burn) ∧
    (∀ c : ℚ, (quick_sort_workouts workouts).filter (fun w => w.calories_burn = c) =
      workouts.filter (fun w => w.calories_burn = c)) ∧
    quick_sort_workouts ([] : List Workout) = [] ∧
    ∀ w : Workout, quick_sort_workouts [w] = [w] := by
  refine ⟨quick_sort_perm workouts, quick_sort_pairwise workouts,
    fun c => quick_sort_filter c workouts, ?_, fun w => ?_⟩
  · rw [quick_sort_workouts]
    simp
  · rw [quick_sort_workouts]
    simp

theorem phase1Aux_calories_le (t pT : ℚ) :
    ∀ (ms acc : List Meal) (c p : ℚ), c ≤ t → (phase1Aux t pT ms acc c p).2.1 ≤ t := by
  intro ms
  induction ms with
  | nil =>
    intro acc c p hc
    simpa [phase1Aux] using hc
  | cons m rest ih =>
    intro acc c p hc
    rw [phase1Aux]
    split
    · next hcond => exact ih _ _ _ hcond.1
    · next => exact ih _ _ _ hc

theorem phase1Aux_calories_eq (t pT : ℚ) :
    ∀ (ms acc : List Meal) (c p : ℚ), c = totalCal acc →
      (phase1Aux t pT ms acc c p).2.1 = totalCal (phase1Aux t pT ms acc c p).1 := by
  intro ms
  induction ms with
  | nil =>
    intro acc c p hc
    simpa [phase1Aux] using hc
  | cons m rest ih =>
    intro acc c p hc
    rw [phase1Aux]
    split
    · next => exact ih _ _ _ (by simp [totalCal, hc])
    · next => exact ih _ _ _ hc

theorem phase1Aux_mem (t pT : ℚ) :
    ∀ (ms acc : List Meal) (c p : ℚ) (x : Meal),
      x ∈ (phase1Aux t pT ms acc c p).1 → x ∈ acc ∨ x ∈ ms := by
  intro ms
  induction ms with
  | nil =>
    intro acc c p x hx
    simp only [phase1Aux] at hx
    exact Or.inl hx
  | cons m rest ih =>
    intro acc c p x hx
    rw [phase1Aux] at hx
    split at hx
    · next =>
      rcases ih _ _ _ x hx with h | h
      · rcases List.mem_append.mp h with h | h
        · exact Or.inl h
        · simp only [List.mem_singleton] at h
          exact Or.inr (h ▸ List.mem_cons_self m rest)
      · exact Or.inr (List.mem_cons_of_mem m h)
    · next =>
      rcases ih _ _ _ x hx with h | h
      · exact Or.inl h
      · exact Or.inr (List.mem_cons_of_mem m h)

theorem phase2Aux_calories_le (cap : ℚ) :
    ∀ (ms acc : List Meal) (c : ℚ), c ≤ cap → (phase2Aux cap ms acc c).2 ≤ cap := by
  intro ms
  induction ms with
  | nil =>
    intro acc c hc
    simpa [phase2Aux] using hc
  | cons m rest ih =>
    intro acc c hc
    rw [phase2Aux]
    split
    · next hcond => exact ih _ _ hcond
    · next => exact ih _ _ hc

theorem phase2Aux_calories_eq (cap : ℚ) :
    ∀ (ms acc : List Meal) (c : ℚ), c = totalCal acc →
      (phase2Aux cap ms acc c).2 = totalCal (phase2Aux cap ms acc c).1 := by
  intro ms
  induction ms with
  | nil =>
    intro acc c hc
    simpa [phase2Aux] using hc
  | cons m rest ih =>
    intro acc c hc
    rw [phase2Aux]
    split
    · next => exact ih _ _ (by simp [totalCal, hc])
    · next => exact ih _ _ hc

theorem phase2Aux_mem (cap : ℚ) :
    ∀ (ms acc : List Meal) (c : ℚ) (x : Meal),
      x ∈ (phase2Aux cap ms acc c).1 → x ∈ acc ∨ x ∈ ms := by
  intro ms
  induction ms with
  | nil =>
    intro acc c x hx
    simp only [phase2Aux] at hx
    exact Or.inl hx
  | cons m rest ih =>
    intro acc c x hx
    rw [phase2Aux] at hx
    split at hx
    · next =>
      rcases ih _ _ x hx with h | h
      · rcases List.mem_append.mp h with h | h
        · exact Or.inl h
        · simp only [List.mem_singleton] at h
          exact Or.inr (h ▸ List.mem_cons_self m rest)
      · exact Or.inr (List.mem_cons_of_mem m h)
    · next =>
      rcases ih _ _ x hx with h | h
      · exact Or.inl h
      · exact Or.inr (List.mem_cons_of_mem m h)

/-- C2: `planDiet` (source: `greedy_diet_planner`) with `targetCalories ≥ 0`
and nonnegative meals: the plan's total calories stay within
`targetCalories * 1.1`, every planned meal comes from the input, and the
empty input yields the empty plan. -/
theorem planDiet_spec (meals : List Meal) (target : ℚ)
    (htarget : 0 ≤ target)
    (hmeals : ∀ m ∈ meals, 0 ≤ m.calories ∧ 0 ≤ m.protein) :
    totalCal (greedy_diet_planner meals target) ≤ target * (11 / 10) ∧
    (∀ m ∈ greedy_diet_planner meals target, m ∈ meals) ∧
    greedy_diet_planner [] target = [] := by
  have hperm := sortBy_perm ratioLe meals
  have hcap : target ≤ target * (11 / 10) := by linarith
  have hc10 : (0 : ℚ) = totalCal [] := by simp [totalCal]
  have hc1le : (phase1Aux target (target * (3 / 10) / 4) (sortBy ratioLe meals) [] 0 0).2.1 ≤
      target := phase1Aux_calories_le _ _ _ [] 0 0 htarget
  have hc1eq : (phase1Aux target (target * (3 / 10) / 4) (sortBy ratioLe meals) [] 0 0).2.1 =
      totalCal (phase1Aux target (target * (3 / 10) / 4) (sortBy ratioLe meals) [] 0 0).1 :=
    phase1Aux_calories_eq _ _ _ [] 0 0 hc10
  have hmem1 : ∀ x ∈ (phase1Aux target (target * (3 / 10) / 4) (sortBy ratioLe meals) [] 0 0).1,
      x ∈ meals := by
    intro x hx
    rcases phase1Aux_mem _ _ _ [] 0 0 x hx with h | h
    · simp at h
    · exact hperm.mem_iff.mp h
  have hempty : greedy_diet_planner [] target = [] := by
    by_cases ht : (0 : ℚ) < target <;>
      simp [greedy_diet_planner, sortBy, phase1Aux, phase2Aux, ht]
  refine ⟨?_, ?_, hempty⟩ <;>
    rw [greedy_diet_planner]  <;>
    split
  · next hrem =>
    rw [← phase2Aux_calories_eq _ _ _ _ hc1eq]
    exact phase2Aux_calories_le _ _ _ _ (le_trans hc1le hcap)
  · next hrem =>
    rw [← hc1eq]
    exact le_trans hc1le hcap
  · next hrem =>
    intro x hx
    rcases phase2Aux_mem _ _ _ _ x hx with h | h
    · exact hmem1 x h
    · have hx2 := (sortBy_perm _ _).mem_iff.mp h
      exact hperm.mem_iff.mp (List.mem_filter.mp hx2).1
  · next hrem =>
    exact hmem1

/-- Witness for C2 at the concrete input `meals = []`, `target = 0`. -/
theorem planDiet_spec_witness :
    (0 : ℚ) ≤ 0 ∧
    (totalCal (greedy_diet_planner [] 0) ≤ 0 * (11 / 10) ∧
      (∀ m ∈ greedy_diet_planner [] 0, m ∈ ([] : List Meal)) ∧
      greedy_diet_planner [] 0 = []) :=
  ⟨le_refl 0, planDiet_spec [] 0 (le_refl 0) (by simp)⟩

theorem progressLoop_spec (log : List (Int × List Activity)) :
    ∀ (n : Nat) (endD : Int) (ta : Nat) (tc : ℚ),
      progressLoop log endD (endD - (n : Int)) ta tc =
        (ta + ((List.range (n + 1)).map (fun (k : Nat) => countAt log (endD - (k : Int)))).sum,
         tc + ((List.range (n + 1)).map (fun (k : Nat) => calsAt log (endD - (k : Int)))).sum) := by
  intro n
  induction n with
  | zero =>
    intro endD ta tc
    rw [progressLoop]
    simp only [Nat.cast_zero, sub_zero, le_refl, if_true]
    rcases hlk : logLookup log endD with _ | acts
    · rw [progressLoop]
      simp [hlk, countAt, calsAt, List.range_succ]
    · simp only [hlk]
      rw [progressLoop, if_neg (by omega : ¬ (endD + 1 ≤ endD))]
      simp [hlk, countAt, calsAt, List.range_succ]
  | succ n ih =>
    intro endD ta tc
    rw [progressLoop]
    have hle : endD - ((n : Int) + 1) ≤ endD := by omega
    have hnext : endD - ((n : Int) + 1) + 1 = endD - (n : Int) := by omega
    have hrange : List.range (n + 1 + 1) = List.range (n + 1) ++ [n + 1] := by
      rw [List.range_add]
      simp [List.range_succ]
    simp only [Nat.cast_succ, hle, if_true]
    rcases hlk : logLookup log (endD - ((n : Int) + 1)) with _ | acts <;>
      simp only [hlk, hnext, ih, hrange, List.map_append, List.sum_append, List.map_cons,
        List.map_nil, List.sum_cons, List.sum_nil, Prod.mk.injEq] <;>
      constructor
    · have hz : countAt log (endD - ((n : Int) + 1)) = 0 := by simp [countAt, hlk]
      push_cast
      rw [hz]
      omega
    · have hz : calsAt log (endD - ((n : Int) + 1)) = 0 := by simp [calsAt, hlk]
      push_cast
      rw [hz]
      ring
    · have hz : countAt log (endD - ((n : Int) + 1)) = acts.length := by simp [countAt, hlk]
      push_cast
      rw [hz]
      omega
    · have hz : calsAt log (endD - ((n : Int) + 1)) = actsCalories acts := by simp [calsAt, hlk]
      push_cast
      rw [hz]
      ring

/-- C6: `aggregateProgress` (source: `calculate_progress`) returns totals equal
to the naive sums over the inclusive calendar range `[today - days, today]`,
and averages equal to total divided by `days` when `days > 0` and `0` when
`days = 0` (total functions: no division error can occur). -/
theorem aggregateProgress_correct (log : List (Int × List Activity)) (today : Int)
    (days : Nat) :
    (calculate_progress log today days).total_activities = naiveActs log today days ∧
    (calculate_progress log today days).total_calories = naiveCals log today days ∧
    (calculate_progress log today days).avg_daily_activities =
      (if 0 < days then (naiveActs log today days : ℚ) / (days : ℚ) else 0) ∧
    (calculate_progress log today days).avg_daily_calories =
      (if 0 < days then naiveCals log today days / (days : ℚ) else 0) := by
  have h := progressLoop_spec log days today 0 0
  simp [calculate_progress, h, naiveActs, naiveCals]

theorem logLookup_mem :
    ∀ (log : List (Int × List Activity)) (d : Int) (v : List Activity),
      logLookup log d = some v → (d, v) ∈ log := by
  intro log
  induction log with
  | nil => intro d v h; simp [logLookup] at h
  | cons kv rest ih =>
    intro d v h
    rw [logLookup] at h
    split at h
    · next heq =>
      simp only [Option.some.injEq] at h
      exact heq ▸ h ▸ List.mem_cons_self kv rest
    · next => exact List.mem_cons_of_mem kv (ih d v h)

theorem calsAt_nonneg (log : List (Int × List Activity)) (d : Int)
    (hnn : ∀ p ∈ log, ∀ a ∈ p.2, 0 ≤ a.calories_burned) : 0 ≤ calsAt log d := by
  rw [calsAt]
  rcases hlk : logLookup log d with _ | acts
  · exact le_refl 0
  · refine List.sum_nonneg ?_
    intro x hx
    rcases List.mem_map.mp hx with ⟨a, ha, rfl⟩
    exact hnn (d, acts) (logLookup_mem log d acts hlk) a ha

/-- C10 (implicit): for a fixed log with nonnegative `calories_burned` and a
fixed current date, `aggregateProgress` totals are monotone in the window
size `days`. -/
theorem aggregateProgress_monotone (log : List (Int × List Activity)) (today : Int)
    (d d' : Nat) (hdd : d ≤ d')
    (hnn : ∀ p ∈ log, ∀ a ∈ p.2, 0 ≤ a.calories_burned) :
    (calculate_progress log today d).total_activities ≤
      (calculate_progress log today d').total_activities ∧
    (calculate_progress log today d).total_calories ≤
      (calculate_progress log today d').total_calories := by
  have h1 := progressLoop_spec log d today 0 0
  have h2 := progressLoop_spec log d' today 0 0
  have hsplit : d' + 1 = (d + 1) + (d' - d) := by omega
  have hreA : ((List.range (d' + 1)).map (fun (k : Nat) => countAt log (today - (k : Int)))).sum =
      ((List.range (d + 1)).map (fun (k : Nat) => countAt log (today - (k : Int)))).sum +
      (((List.range (d' - d)).map (fun x => (d + 1) + x)).map
        (fun (k : Nat) => countAt log (today - (k : Int)))).sum := by
    rw [hsplit, List.range_add, List.map_append, List.sum_append]
  have hreC : ((List.range (d' + 1)).map (fun (k : Nat) => calsAt log (today - (k : Int)))).sum =
      ((List.range (d + 1)).map (fun (k : Nat) => calsAt log (today - (k : Int)))).sum +
      (((List.range (d' - d)).map (fun x => (d + 1) + x)).map
        (fun (k : Nat) => calsAt log (today - (k : Int)))).sum := by
    rw [hsplit, List.range_add, List.map_append, List.sum_append]
  constructor
  · show (progressLoop log today (today - (d : Int)) 0 0).1 ≤
      (progressLoop log today (today - (d' : Int)) 0 0).1
    rw [h1, h2]
    simp only [Nat.zero_add, zero_add]
    rw [hreA]
    exact Nat.le_add_right _ _
  · show (progressLoop log today (today - (d : Int)) 0 0).2 ≤
      (progressLoop log today (today - (d' : Int)) 0 0).2
    rw [h1, h2]
    simp only [zero_add]
    rw [hreC]
    refine le_add_of_nonneg_right (List.sum_nonneg ?_)
    intro x hx
    rcases List.mem_map.mp hx with ⟨a, ha, rfl⟩
    exact calsAt_nonneg log _ hnn

/-- Witness for C10 at the concrete input: empty log, `today = 0`,
windows `d = 0 ≤ d' = 1`. -/
theorem aggregateProgress_monotone_witness :
    (calculate_progress [] 0 0).total_activities ≤
      (calculate_progress [] 0 1).total_activities ∧
    (calculate_progress [] 0 0).total_calories ≤
      (calculate_progress [] 0 1).total_calories :=
  aggregateProgress_monotone [] 0 0 1 (by omega) (by simp)

theorem progressLoopS_spec (endD : Int) :
    ∀ (cur : Int) (log : List (Int × List Activity)) (ta : Nat) (tc : ℚ),
      (progressLoopS endD cur log ta tc).2 = log ∧
      (progressLoopS endD cur log ta tc).1 = progressLoop log endD cur ta tc := by
  intro cur log ta tc
  induction cur, log, ta, tc using progressLoopS.induct endD with
  | case1 cur log ta tc hle hmem g1 g2 ih =>
    obtain ⟨v, hv⟩ := Option.isSome_iff_exists.mp hmem
    have hg : ddGet log cur = (v, log) := by rw [ddGet, hv]
    have hg1 : g1 = (v, log) := hg
    have hg2 : g2 = (v, log) := by
      show ddGet g1.2 cur = (v, log)
      rw [hg1]
      exact hg
    simp [hg1, hg2] at ih
    have hstep : progressLoopS endD cur log ta tc =
        progressLoopS endD (cur + 1) log (ta + v.length) (tc + actsCalories v) := by
      rw [progressLoopS, if_pos hle, if_pos hmem]
      simp only [hg]
    have hpure : progressLoop log endD cur ta tc =
        progressLoop log endD (cur + 1) (ta + v.length) (tc + actsCalories v) := by
      rw [progressLoop, if_pos hle]
      simp only [hv]
    rw [hstep, hpure]
    exact ih
  | case2 cur log ta tc hle hmem ih =>
    have hv : logLookup log cur = none := by
      rcases h : logLookup log cur with _ | w
      · rfl
      · exact absurd (by rw [ddMem, h]; rfl) hmem
    have hstep : progressLoopS endD cur log ta tc =
        progressLoopS endD (cur + 1) log ta tc := by
      rw [progressLoopS, if_pos hle, if_neg hmem]
    have hpure : progressLoop log endD cur ta tc =
        progressLoop log endD (cur + 1) ta tc := by
      rw [progressLoop, if_pos hle]
      simp only [hv]
    rw [hstep, hpure]
    exact ih
  | case3 cur log ta tc hle =>
    rw [progressLoopS, if_neg hle, progressLoop, if_neg hle]
    exact ⟨rfl, rfl⟩

/-- C9: the engine borrows its collections without mutating them.  In this
embedding every operation other than the aggregator is a pure function of its
arguments (their Python bodies create only fresh lists); the one operation
that touches a mutable-by-access structure — `calculate_progress` over the
user's `defaultdict` activity log — is embedded statefully here, and the log
it hands back equals the input log (the `in` membership test never inserts,
and `[...]` indexing only happens on present keys), while its result agrees
with the pure embedding. -/
theorem engine_frame_preservation (log : List (Int × List Activity)) (today : Int)
    (days : Nat) :
    (calculate_progressS log today days).2 = log ∧
    (calculate_progressS log today days).1 = calculate_progress log today days := by
  have h := progressLoopS_spec today (today - (days : Int)) log 0 0
  constructor
  · exact h.1
  · simp only [calculate_progressS, calculate_progress, h.2]

theorem dpVal_zero (ws : List Workout) : dpVal ws 0 = 0 := by
  cases ws <;> rfl

theorem dpVal_nil (j : Nat) : dpVal [] j = 0 := by
  cases j <;> rfl

theorem backtrack_zero (ws : List Workout) : backtrack ws 0 = [] := by
  cases ws <;> rfl

theorem backtrack_sublist : ∀ (ws : List Workout) (j : Nat),
    List.Sublist (backtrack ws j) ws := by
  intro ws
  induction ws with
  | nil =>
    intro j
    simp [backtrack]
  | cons w ws ih =>
    intro j
    cases j with
    | zero => simp [backtrack_zero]
    | succ j =>
      rw [backtrack]
      split
      · next => exact List.Sublist.cons₂ w (ih _)
      · next => exact List.Sublist.cons w (ih _)

theorem backtrack_totalDur : ∀ (ws : List Workout) (j : Nat),
    totalDur (backtrack ws j) ≤ j := by
  intro ws
  induction ws with
  | nil =>
    intro j
    simp [backtrack, totalDur]
  | cons w ws ih =>
    intro j
    cases j with
    | zero => simp [backtrack_zero, totalDur]
    | succ j =>
      rw [backtrack]
      split
      · next hsel =>
        have h1 := ih (j + 1 - w.duration)
        have h2 := hsel.1
        simp only [totalDur, List.map_cons, List.sum_cons]
        simp only [totalDur] at h1
        omega
      · next => exact le_trans (ih (j + 1)) (le_refl _)

theorem backtrack_totalBurn : ∀ (ws : List Workout) (j : Nat),
    totalBurn (backtrack ws j) = dpVal ws j := by
  intro ws
  induction ws with
  | nil =>
    intro j
    simp [backtrack, dpVal_nil, totalBurn]
  | cons w ws ih =>
    intro j
    cases j with
    | zero => simp [backtrack_zero, dpVal_zero, totalBurn]
    | succ j =>
      rw [backtrack, dpVal]
      split
      · next hsel =>
        rw [if_pos hsel.1, if_pos hsel.2]
        simp only [totalBurn, List.map_cons, List.sum_cons]
        rw [show (List.map Workout.calories_burn (backtrack ws (j + 1 - w.duration))).sum =
          totalBurn (backtrack ws (j + 1 - w.duration)) from rfl, ih]
      · next hsel =>
        push_neg at hsel
        by_cases hd : w.duration ≤ j + 1
        · rw [if_pos hd, if_neg (not_lt_of_le (hsel hd))]
          exact ih (j + 1)
        · rw [if_neg hd]
          exact ih (j + 1)

theorem dpVal_le_cons (w : Workout) (ws : List Workout) (j : Nat) :
    dpVal ws (j + 1) ≤ dpVal (w :: ws) (j + 1) := by
  rw [dpVal]
  by_cases hd : w.duration ≤ j + 1
  · rw [if_pos hd]
    by_cases hs : dpVal ws (j + 1) < w.calories_burn + dpVal ws (j + 1 - w.duration)
    · rw [if_pos hs]
      exact le_of_lt hs
    · rw [if_neg hs]
  · rw [if_neg hd]

theorem dpVal_cons_ge_take (w : Workout) (ws : List Workout) (j : Nat)
    (hd : w.duration ≤ j + 1) :
    w.calories_burn + dpVal ws (j + 1 - w.duration) ≤ dpVal (w :: ws) (j + 1) := by
  rw [dpVal, if_pos hd]
  by_cases hs : dpVal ws (j + 1) < w.calories_burn + dpVal ws (j + 1 - w.duration)
  · rw [if_pos hs]
  · rw [if_neg hs]
    exact le_of_not_lt hs

theorem totalDur_zero (s : List Workout) (h : ∀ x ∈ s, 1 ≤ x.duration)
    (h0 : totalDur s ≤ 0) : s = [] := by
  cases s with
  | nil => rfl
  | cons x t =>
    exfalso
    have hx := h x (List.mem_cons_self x t)
    simp only [totalDur, List.map_cons, List.sum_cons] at h0
    omega

theorem dpVal_ge : ∀ (ws : List Workout), (∀ w ∈ ws, 1 ≤ w.duration) →
    ∀ (j : Nat) (s : List Workout), List.Sublist s ws → totalDur s ≤ j →
      totalBurn s ≤ dpVal ws j := by
  intro ws
  induction ws with
  | nil =>
    intro _ j s hs hd
    rw [List.sublist_nil.mp hs]
    simp [totalBurn, dpVal_nil]
  | cons w ws ih =>
    intro hdur j s hs hd
    cases j with
    | zero =>
      have hs0 : s = [] :=
        totalDur_zero s (fun x hx => hdur x (hs.subset hx)) hd
      rw [hs0]
      simp [totalBurn, dpVal_zero]
    | succ j =>
      cases hs with
      | cons _ hsub =>
        exact le_trans
          (ih (fun x hx => hdur x (List.mem_cons_of_mem w hx)) (j + 1) _ hsub hd)
          (dpVal_le_cons w ws j)
      | cons₂ _ hsub =>
        rename_i s'
        have hds : w.duration + totalDur s' ≤ j + 1 := by
          simpa [totalDur] using hd
        have hwd : w.duration ≤ j + 1 := by omega
        have hs' : totalDur s' ≤ j + 1 - w.duration := by omega
        have hb : totalBurn s' ≤ dpVal ws (j + 1 - w.duration) :=
          ih (fun x hx => hdur x (List.mem_cons_of_mem w hx)) _ s' hsub hs'
        have : totalBurn (w :: s') = w.calories_burn + totalBurn s' := by
          simp [totalBurn]
        rw [this]
        exact le_trans (by linarith) (dpVal_cons_ge_take w ws j hwd)

theorem foldr_max_ge : ∀ (l : List ℚ) (x : ℚ), x ∈ l → x ≤ l.foldr max 0 := by
  intro l
  induction l with
  | nil => intro x hx; simp at hx
  | cons a t ih =>
    intro x hx
    rcases List.mem_cons.mp hx with rfl | hx
    · exact le_max_left _ _
    · exact le_trans (ih x hx) (le_max_right _ _)

theorem foldr_max_cases : ∀ l : List ℚ, l.foldr max 0 = 0 ∨ l.foldr max 0 ∈ l := by
  intro l
  induction l with
  | nil => exact Or.inl rfl
  | cons a t ih =>
    simp only [List.foldr_cons]
    rcases max_choice a (t.foldr max 0) with h | h
    · rw [h]
      exact Or.inr (List.mem_cons_self a t)
    · rw [h]
      rcases ih with h0 | hm
      · exact Or.inl h0
      · exact Or.inr (List.mem_cons_of_mem a hm)

theorem totalBurn_reverse (s : List Workout) : totalBurn s.reverse = totalBurn s := by
  simp [totalBurn, List.map_reverse, List.sum_reverse]

theorem totalDur_reverse (s : List Workout) : totalDur s.reverse = totalDur s := by
  simp [totalDur, List.map_reverse, List.sum_reverse]

theorem dp_total_eq_bestValue (items : List Workout) (cap : Nat)
    (hdur : ∀ w ∈ items, 1 ≤ w.duration) :
    totalBurn (backtrack items.reverse cap) = bestValue items cap := by
  have hrevdur : ∀ w ∈ items.reverse, 1 ≤ w.duration := by
    intro w hw
    exact hdur w (List.mem_reverse.mp hw)
  refine le_antisymm ?_ ?_
  · have hsub2 : List.Sublist (backtrack items.reverse cap).reverse items := by
      have h := (backtrack_sublist items.reverse cap).reverse
      rwa [List.reverse_reverse] at h
    have hmem : totalBurn (backtrack items.reverse cap).reverse ∈
        ((items.sublists.filter (fun s => totalDur s ≤ cap)).map totalBurn) := by
      refine List.mem_map.mpr ⟨_, ?_, rfl⟩
      refine List.mem_filter.mpr ⟨List.mem_sublists.mpr hsub2, ?_⟩
      refine decide_eq_true ?_
      rw [totalDur_reverse]
      exact backtrack_totalDur _ _
    have h := foldr_max_ge _ _ hmem
    rwa [totalBurn_reverse] at h
  · rw [backtrack_totalBurn]
    rcases foldr_max_cases ((items.sublists.filter (fun s => totalDur s ≤ cap)).map totalBurn)
      with h0 | hm
    · rw [bestValue, h0]
      have h := dpVal_ge items.reverse hrevdur cap [] (List.nil_sublist _) (by simp [totalDur])
      simpa [totalBurn] using h
    · rcases List.mem_map.mp hm with ⟨s, hsf, heq⟩
      have hss : List.Sublist s items := List.mem_sublists.mp (List.mem_filter.mp hsf).1
      have hsd : totalDur s ≤ cap := of_decide_eq_true (List.mem_filter.mp hsf).2
      have h := dpVal_ge items.reverse hrevdur cap s.reverse hss.reverse
        (by rwa [totalDur_reverse])
      rw [totalBurn_reverse] at h
      rw [bestValue, ← heq]
      exact h

/-- C1 counterexample: at the concrete input of a single matching workout with
`duration = 0` and `calories_burn = 5` and `maxDuration = 0`, the scheduler
returns total burn `0` while the brute-force optimum is `5` (the inner DP loop
starts at `j = 1` and the backtrack stops at `j = 0`, so zero-duration items
are unreachable at budget `0`): the claim as stated is false. -/
theorem scheduleWorkouts_not_always_optimal :
    totalBurn (dp_workout_scheduler [⟨"Z", "easy", 0, 5, 0⟩] 0 "easy") ≠
      bestValue (([⟨"Z", "easy", 0, 5, 0⟩] : List Workout).filter
        (fun w => w.difficulty = "easy")) 0 := by
  intro heq
  have hL : dp_workout_scheduler [⟨"Z", "easy", 0, 5, 0⟩] 0 "easy" = [] := rfl
  have hfil : (([⟨"Z", "easy", 0, 5, 0⟩] : List Workout).filter
      (fun w => w.difficulty = "easy")) = [⟨"Z", "easy", 0, 5, 0⟩] := rfl
  have hmem : totalBurn [⟨"Z", "easy", 0, 5, 0⟩] ∈
      ((([⟨"Z", "easy", 0, 5, 0⟩] : List Workout).sublists.filter
        (fun s => totalDur s ≤ 0)).map totalBurn) := by
    refine List.mem_map.mpr ⟨[⟨"Z", "easy", 0, 5, 0⟩], ?_, rfl⟩
    refine List.mem_filter.mpr ⟨List.mem_sublists.mpr (List.Sublist.refl _), ?_⟩
    refine decide_eq_true ?_
    show totalDur [⟨"Z", "easy", 0, 5, 0⟩] ≤ 0
    simp [totalDur]
  have h5 : totalBurn [⟨"Z", "easy", 0, 5, 0⟩] ≤
      bestValue ([⟨"Z", "easy", 0, 5, 0⟩] : List Workout) 0 := foldr_max_ge _ _ hmem
  have hB : totalBurn ([⟨"Z", "easy", 0, 5, 0⟩] : List Workout) = 5 := by
    simp [totalBurn]
  have hN : totalBurn (dp_workout_scheduler [⟨"Z", "easy", 0, 5, 0⟩] 0 "easy") = 0 := by
    rw [hL]
    simp [totalBurn]
  rw [hN, hfil] at heq
  rw [hB] at h5
  rw [← heq] at h5
  linarith

/-- C1 (amended): provided every workout has `duration ≥ 1` (which the
counterexample shows is necessary: the source's DP never fills budget column 0,
losing zero-duration items), the total `calories_burn` of the schedule equals
the brute-force 0/1-knapsack optimum over the difficulty-filtered workouts at
capacity `maxDuration`. -/
theorem scheduleWorkouts_optimal (workouts : List Workout) (max_duration : Nat)
    (difficulty : String) (hdur : ∀ w ∈ workouts, 1 ≤ w.duration) :
    totalBurn (dp_workout_scheduler workouts max_duration difficulty) =
      bestValue (workouts.filter (fun w => w.difficulty = difficulty)) max_duration := by
  have hfd : ∀ w ∈ workouts.filter (fun w => w.difficulty = difficulty), 1 ≤ w.duration :=
    fun w hw => hdur w (List.mem_filter.mp hw).1
  exact dp_total_eq_bestValue _ _ hfd

/-- Witness for the amended C1 at the concrete input: no workouts,
`maxDuration = 0`, difficulty `easy`. -/
theorem scheduleWorkouts_optimal_witness :
    (∀ w ∈ ([] : List Workout), 1 ≤ w.duration) ∧
    totalBurn (dp_workout_scheduler [] 0 "easy") =
      bestValue (([] : List Workout).filter (fun w => w.difficulty = "easy")) 0 :=
  ⟨by simp, scheduleWorkouts_optimal [] 0 "easy" (by simp)⟩

/-- C7: the scheduler lists the selected workouts in exactly the reverse of
their order of appearance in the difficulty-filtered input: the result is the
reverse of a sublist of the filtered sequence. -/
theorem scheduleWorkouts_reverse_order (workouts : List Workout) (max_duration : Nat)
    (difficulty : String) :
    ∃ chosen : List Workout,
      List.Sublist chosen (workouts.filter (fun w => w.difficulty = difficulty)) ∧
      dp_workout_scheduler workouts max_duration difficulty = chosen.reverse := by
  refine ⟨(dp_workout_scheduler workouts max_duration difficulty).reverse, ?_, by simp⟩
  show List.Sublist
    (backtrack (workouts.filter (fun w => w.difficulty = difficulty)).reverse
      max_duration).reverse _
  have h := (backtrack_sublist
    (workouts.filter (fun w => w.difficulty = difficulty)).reverse max_duration).reverse
  rwa [List.reverse_reverse] at h

/-- C8: the schedule's total duration never exceeds `maxDuration`; a zero
budget yields the empty schedule; and when no workout matches the difficulty
the schedule is empty (all operations are total: no error is possible). -/
theorem scheduleWorkouts_bounds (workouts : List Workout) (max_duration : Nat)
    (difficulty : String) :
    totalDur (dp_workout_scheduler workouts max_duration difficulty) ≤ max_duration ∧
    dp_workout_scheduler workouts 0 difficulty = [] ∧
    (workouts.filter (fun w => w.difficulty = difficulty) = [] →
      dp_workout_scheduler workouts max_duration difficulty = []) := by
  refine ⟨backtrack_totalDur _ _, backtrack_zero _, ?_⟩
  intro hf
  show backtrack (workouts.filter (fun w => w.difficulty = difficulty)).reverse
      max_duration = []
  rw [hf]
  rfl

/-- Witness for C8 at the concrete input: no workouts, `maxDuration = 3`,
difficulty `easy` (the no-match hypothesis holds by computation). -/
theorem scheduleWorkouts_bounds_witness :
    totalDur (dp_workout_scheduler [] 3 "easy") ≤ 3 ∧
    dp_workout_scheduler [] 0 "easy" = [] ∧
    dp_workout_scheduler [] 3 "easy" = [] := by
  have h := scheduleWorkouts_bounds [] 3 "easy"
  exact ⟨h.1, h.2.1, h.2.2 rfl⟩
